import Mathlib

/-!
Verification of the ABParallel library (ABParallel.h) against its design
specification.

The C++ library is a header of parallel sequence algorithms.  Every binary
divide-and-conquer operation has the shape: if the range size `n` is at most
`chunkSize`, run the sequential STL leaf; otherwise split at `mid = n / 2`,
run the left half `[first, mid)` in an asynchronous task, recurse on the right
half `[mid, last)` on the calling thread, join, and combine.  Since the two
halves act on disjoint sub-ranges and every task is joined exactly once, the
observable behaviour is deterministic; we embed each operation as a pure
function on `List Int` (the range contents), with iterators modelled as
indices (`l.length` is the end-of-range sentinel `last`).

Totality note: every recursive definition carries the extra guard
`l.length ≤ 1` (or `chunkSize = 0` for the chunk-table recursions).  It is
unreachable under the library contract `chunkSize ≥ 1`: when
`¬ (n ≤ chunkSize)` and `chunkSize ≥ 1` we have `n ≥ 2`, and both halves are
strictly smaller.  For `chunkSize = 0` the source recurses forever (or divides
by zero), which the specification declares undefined; the guard makes the
Lean embedding total there.
-/

set_option linter.unusedVariables false

namespace ABParallel

/-- Parallel version of std::transform.  Models the contents written to the
destination range: the source splits source and destination at `n / 2`,
transforms the left half in a task and the right half synchronously, so the
written destination is the concatenation of the two halves' outputs.  The
sequential leaf std::transform writes `l.map f`. -/
def par_transform (f : Int → Int) (l : List Int) (chunkSize : Nat) : List Int :=
  if h : l.length ≤ chunkSize ∨ l.length ≤ 1 then l.map f
  else
    par_transform f (l.take (l.length / 2)) chunkSize ++
      par_transform f (l.drop (l.length / 2)) chunkSize
termination_by l.length
decreasing_by
  · simp [List.length_take]; omega
  · simp [List.length_drop]; omega

/-- Parallel version of std::fill.  The leaf std::fill overwrites every
element of the sub-range with `value`. -/
def par_fill (value : Int) (l : List Int) (chunkSize : Nat) : List Int :=
  if h : l.length ≤ chunkSize ∨ l.length ≤ 1 then l.map fun _ => value
  else
    par_fill value (l.take (l.length / 2)) chunkSize ++
      par_fill value (l.drop (l.length / 2)) chunkSize
termination_by l.length
decreasing_by
  · simp [List.length_take]; omega
  · simp [List.length_drop]; omega

/-- Parallel version of std::copy.  Models the contents written to the
destination range. -/
def par_copy (l : List Int) (chunkSize : Nat) : List Int :=
  if h : l.length ≤ chunkSize ∨ l.length ≤ 1 then l
  else
    par_copy (l.take (l.length / 2)) chunkSize ++
      par_copy (l.drop (l.length / 2)) chunkSize
termination_by l.length
decreasing_by
  · simp [List.length_take]; omega
  · simp [List.length_drop]; omega

/-- Parallel sum.  The sequential leaf is
std::accumulate(first, last, 0), a left-to-right fold; the combine step
returns `acc1 + acc2` where `acc1` is the right half's sum (computed
synchronously) and `acc2` the left half's (from the joined task). -/
def par_sum (l : List Int) (chunkSize : Nat) : Int :=
  if h : l.length ≤ chunkSize ∨ l.length ≤ 1 then l.foldl (· + ·) 0
  else
    par_sum (l.drop (l.length / 2)) chunkSize +
      par_sum (l.take (l.length / 2)) chunkSize
termination_by l.length
decreasing_by
  · simp [List.length_drop]; omega
  · simp [List.length_take]; omega

/-- Parallel sum with a mapping functor (the second par_sum overload).  The
sequential leaf accumulates `sum += func(*i)` left to right. -/
def par_sum_f (f : Int → Int) (l : List Int) (chunkSize : Nat) : Int :=
  if h : l.length ≤ chunkSize ∨ l.length ≤ 1 then l.foldl (fun s x => s + f x) 0
  else
    par_sum_f f (l.drop (l.length / 2)) chunkSize +
      par_sum_f f (l.take (l.length / 2)) chunkSize
termination_by l.length
decreasing_by
  · simp [List.length_drop]; omega
  · simp [List.length_take]; omega

/-- Parallel version of std::count. -/
def par_count (l : List Int) (value : Int) (chunkSize : Nat) : Nat :=
  if h : l.length ≤ chunkSize ∨ l.length ≤ 1 then l.count value
  else
    par_count (l.drop (l.length / 2)) value chunkSize +
      par_count (l.take (l.length / 2)) value chunkSize
termination_by l.length
decreasing_by
  · simp [List.length_drop]; omega
  · simp [List.length_take]; omega

/-- Parallel version of std::count_if. -/
def par_count_if (p : Int → Bool) (l : List Int) (chunkSize : Nat) : Nat :=
  if h : l.length ≤ chunkSize ∨ l.length ≤ 1 then l.countP p
  else
    par_count_if p (l.drop (l.length / 2)) chunkSize +
      par_count_if p (l.take (l.length / 2)) chunkSize
termination_by l.length
decreasing_by
  · simp [List.length_drop]; omega
  · simp [List.length_take]; omega

/-- Parallel version of std::find.  Iterators are modelled as indices into
the range; `l.length` is the end-of-range iterator `last`.  The sequential
leaf std::find returns the first position whose element equals `value`
(`List.findIdx`), and the combine step gives the left half's find priority:
the right half's result is used only when the left task came back empty-handed
(its result equals `srcMiddle`), and `last` is returned when both halves
missed. -/
def par_find (l : List Int) (value : Int) (chunkSize : Nat) : Nat :=
  if h : l.length ≤ chunkSize ∨ l.length ≤ 1 then l.findIdx fun x => x == value
  else
    let mid := l.length / 2
    let itFoundByFirstPart := par_find (l.take mid) value chunkSize
    let itFoundBySecondPart := par_find (l.drop mid) value chunkSize
    if itFoundByFirstPart ≠ mid then itFoundByFirstPart
    else if itFoundBySecondPart ≠ l.length - mid then mid + itFoundBySecondPart
    else l.length
termination_by l.length
decreasing_by
  · simp [List.length_take]; omega
  · simp [List.length_drop]; omega

/-- Parallel version of std::find_if; same recombination as par_find. -/
def par_find_if (p : Int → Bool) (l : List Int) (chunkSize : Nat) : Nat :=
  if h : l.length ≤ chunkSize ∨ l.length ≤ 1 then l.findIdx p
  else
    let mid := l.length / 2
    let itFoundByFirstPart := par_find_if p (l.take mid) chunkSize
    let itFoundBySecondPart := par_find_if p (l.drop mid) chunkSize
    if itFoundByFirstPart ≠ mid then itFoundByFirstPart
    else if itFoundBySecondPart ≠ l.length - mid then mid + itFoundBySecondPart
    else l.length
termination_by l.length
decreasing_by
  · simp [List.length_take]; omega
  · simp [List.length_drop]; omega

/-- Parallel version of std::find_if_not; same recombination as par_find. -/
def par_find_if_not (p : Int → Bool) (l : List Int) (chunkSize : Nat) : Nat :=
  if h : l.length ≤ chunkSize ∨ l.length ≤ 1 then l.findIdx fun x => !(p x)
  else
    let mid := l.length / 2
    let itFoundByFirstPart := par_find_if_not p (l.take mid) chunkSize
    let itFoundBySecondPart := par_find_if_not p (l.drop mid) chunkSize
    if itFoundByFirstPart ≠ mid then itFoundByFirstPart
    else if itFoundBySecondPart ≠ l.length - mid then mid + itFoundBySecondPart
    else l.length
termination_by l.length
decreasing_by
  · simp [List.length_take]; omega
  · simp [List.length_drop]; omega

/-- Parallel version of std::replace. -/
def par_replace (l : List Int) (oldValue newValue : Int) (chunkSize : Nat) : List Int :=
  if h : l.length ≤ chunkSize ∨ l.length ≤ 1 then
    l.map fun x => if x == oldValue then newValue else x
  else
    par_replace (l.take (l.length / 2)) oldValue newValue chunkSize ++
      par_replace (l.drop (l.length / 2)) oldValue newValue chunkSize
termination_by l.length
decreasing_by
  · simp [List.length_take]; omega
  · simp [List.length_drop]; omega

/-- Parallel version of std::replace_if. -/
def par_replace_if (p : Int → Bool) (newValue : Int) (l : List Int) (chunkSize : Nat) : List Int :=
  if h : l.length ≤ chunkSize ∨ l.length ≤ 1 then
    l.map fun x => if p x then newValue else x
  else
    par_replace_if p newValue (l.take (l.length / 2)) chunkSize ++
      par_replace_if p newValue (l.drop (l.length / 2)) chunkSize
termination_by l.length
decreasing_by
  · simp [List.length_take]; omega
  · simp [List.length_drop]; omega

/-- Sequential std::equal over a source range and the range of the same
length starting at dst, modelled as elementwise comparison of the zipped
ranges. -/
def seq_equal (l m : List Int) : Bool := (l.zip m).all fun ab => ab.1 == ab.2

/-- Parallel version of std::equal.  Both the source range and the
destination range are split at `n / 2` (`n` taken from the source); the two
sub-results are combined with logical AND, `equal1` being the right half's
verdict and `equal2` the left's. -/
def par_equal (l m : List Int) (chunkSize : Nat) : Bool :=
  if h : l.length ≤ chunkSize ∨ l.length ≤ 1 then seq_equal l m
  else
    let equal1 := par_equal (l.drop (l.length / 2)) (m.drop (l.length / 2)) chunkSize
    let equal2 := par_equal (l.take (l.length / 2)) (m.take (l.length / 2)) chunkSize
    equal1 && equal2
termination_by l.length
decreasing_by
  · simp [List.length_drop]; omega
  · simp [List.length_take]; omega

/-- Parallel version of std::all_of, implemented in the source as
par_find_if_not == last. -/
def par_all_of (p : Int → Bool) (l : List Int) (chunkSize : Nat) : Bool :=
  par_find_if_not p l chunkSize == l.length

/-- Parallel version of std::any_of, implemented as par_find_if != last. -/
def par_any_of (p : Int → Bool) (l : List Int) (chunkSize : Nat) : Bool :=
  par_find_if p l chunkSize != l.length

/-- Parallel version of std::none_of, implemented as par_find_if == last. -/
def par_none_of (p : Int → Bool) (l : List Int) (chunkSize : Nat) : Bool :=
  par_find_if p l chunkSize == l.length

/-- The largest value of a range, as the scan of std::max_element visits it
(a fold of `max` seeded with the first element); 0 for an empty range, where
it is never used. -/
def maxVal : List Int → Int
  | [] => 0
  | x :: xs => xs.foldl max x

/-- The smallest value of a range; 0 for an empty range. -/
def minVal : List Int → Int
  | [] => 0
  | x :: xs => xs.foldl min x

/-- Sequential std::max_element, modelled through its contract: the iterator
to the first occurrence of the largest element (the scan replaces its best
only on strict increase, so the first maximum wins), and `last` for an empty
range (`findIdx` on `[]` is `0 = length`). -/
def std_max_element (l : List Int) : Nat := l.findIdx fun x => decide (maxVal l ≤ x)

/-- Sequential std::min_element: first occurrence of the smallest element
(the scan replaces only on strict decrease). -/
def std_min_element (l : List Int) : Nat := l.findIdx fun x => decide (x ≤ minVal l)

/-- Parallel version of std::max_element.  `max2` is the left task's result,
`max1` the right half's (offset by `mid`); the combine step is
`(*max2 < *max1) ? max1 : max2`, so on ties the left sub-extremum wins. -/
def par_max_element (l : List Int) (chunkSize : Nat) : Nat :=
  if h : l.length ≤ chunkSize ∨ l.length ≤ 1 then std_max_element l
  else
    let mid := l.length / 2
    let max2 := par_max_element (l.take mid) chunkSize
    let max1 := mid + par_max_element (l.drop mid) chunkSize
    if l.getD max2 0 < l.getD max1 0 then max1 else max2
termination_by l.length
decreasing_by
  · simp [List.length_take]; omega
  · simp [List.length_drop]; omega

/-- Parallel version of std::min_element (no comparator).  `min2` is the left
task's result, `min1` the right half's; the combine step is
`(*min2 <= *min1) ? min2 : min1`, so on ties the left sub-extremum wins. -/
def par_min_element (l : List Int) (chunkSize : Nat) : Nat :=
  if h : l.length ≤ chunkSize ∨ l.length ≤ 1 then std_min_element l
  else
    let mid := l.length / 2
    let min2 := par_min_element (l.take mid) chunkSize
    let min1 := mid + par_min_element (l.drop mid) chunkSize
    if l.getD min2 0 ≤ l.getD min1 0 then min2 else min1
termination_by l.length
decreasing_by
  · simp [List.length_take]; omega
  · simp [List.length_drop]; omega

/-- Sequential std::min_element with a comparator, modelled through its
contract: the first position whose element compares not-greater against every
element of the range. -/
def std_min_element_cmp (f : Int → Int → Bool) (l : List Int) : Nat :=
  l.findIdx fun x => l.all fun y => !(f y x)

/-- Parallel version of std::min_element with a comparator.  The combine step
is `func(*min2, *min1) ? min2 : min1` with `min2` the left result: the left
sub-extremum is kept only when it compares strictly less, so on ties the
right sub-extremum wins. -/
def par_min_element_cmp (f : Int → Int → Bool) (l : List Int) (chunkSize : Nat) : Nat :=
  if h : l.length ≤ chunkSize ∨ l.length ≤ 1 then std_min_element_cmp f l
  else
    let mid := l.length / 2
    let min2 := par_min_element_cmp f (l.take mid) chunkSize
    let min1 := mid + par_min_element_cmp f (l.drop mid) chunkSize
    if f (l.getD min2 0) (l.getD min1 0) then min2 else min1
termination_by l.length
decreasing_by
  · simp [List.length_take]; omega
  · simp [List.length_drop]; omega

/-- The futures table built by the chunk loop of par_copy_if: entry k holds
the elements the k-th chunk task writes (std::copy_if of the window
`[startId, min(startId + chunkSize, n))` keeps exactly the elements
satisfying the predicate, in order).  For `chunkSize = 0` the source loop
never advances (and `n / chunkSize` divides by zero) -- undefined behaviour
-- so the guard returns the empty table to keep the embedding total. -/
def copyIfFutures (p : Int → Bool) (l : List Int) (chunkSize : Nat) : List (List Int) :=
  if h : l.length = 0 ∨ chunkSize = 0 then []
  else (l.take chunkSize).filter p :: copyIfFutures p (l.drop chunkSize) chunkSize
termination_by l.length
decreasing_by simp [List.length_drop]; omega

/-- Parallel version of std::copy_if, as the contents of the destination
range `[dst, dstLast)`: the stitch loop starts from the front future's
retained region and moves each later chunk's retained region to follow it.
On an empty input range the futures table is empty and the source calls
futures.front() on an empty vector -- undefined behaviour, modelled as
`none`. -/
def par_copy_if (p : Int → Bool) (l : List Int) (chunkSize : Nat) : Option (List Int) :=
  match copyIfFutures p l chunkSize with
  | [] => none
  | f :: fs => some (fs.foldl (fun dstLast r => dstLast ++ r) f)

/-- The futures table of par_remove_if: the k-th task runs std::remove_if on
its own window, whose retained region holds the window's elements NOT
satisfying the predicate, in order. -/
def removeIfFutures (p : Int → Bool) (l : List Int) (chunkSize : Nat) : List (List Int) :=
  if h : l.length = 0 ∨ chunkSize = 0 then []
  else (l.take chunkSize).filter (fun x => !(p x)) ::
    removeIfFutures p (l.drop chunkSize) chunkSize
termination_by l.length
decreasing_by simp [List.length_drop]; omega

/-- Parallel version of std::remove_if: the contents of `[first, dstLast)`
where dstLast is the returned iterator (elements past it are left in an
unspecified state by the source).  Empty range: same undefined
futures.front() as par_copy_if. -/
def par_remove_if (p : Int → Bool) (l : List Int) (chunkSize : Nat) : Option (List Int) :=
  match removeIfFutures p l chunkSize with
  | [] => none
  | f :: fs => some (fs.foldl (fun dstLast r => dstLast ++ r) f)

/-- Number of std::async dispatches performed by the chunk loop of
par_copy_if / par_remove_if on a range of size n: one per chunk. -/
def chunkTasks (n chunkSize : Nat) : Nat :=
  if h : n = 0 ∨ chunkSize = 0 then 0
  else 1 + chunkTasks (n - chunkSize) chunkSize
termination_by n
decreasing_by omega

/-- Number of std::async dispatches performed by par_transform (the shape is
identical for every binary divide-and-conquer operation): none in the
sequential leaf, one per split plus those of the two halves otherwise. -/
def par_transform_tasks (l : List Int) (chunkSize : Nat) : Nat :=
  if h : l.length ≤ chunkSize ∨ l.length ≤ 1 then 0
  else
    1 + par_transform_tasks (l.take (l.length / 2)) chunkSize +
      par_transform_tasks (l.drop (l.length / 2)) chunkSize
termination_by l.length
decreasing_by
  · simp [List.length_take]; omega
  · simp [List.length_drop]; omega

/-- The main comparison loop of par_merge.  Both halves have been copied
into temporary buffers `ls` (arrayLeft) and `rs` (arrayRight); while neither
buffer is exhausted, the front of `ls` is taken when `f` front-left
front-right holds, otherwise the front of `rs`.  Returns the written
sequence and the two untaken remainders (at least one of which is empty). -/
def mergeLoop {α : Type} (f : α → α → Bool) : List α → List α → List α × List α × List α
  | [], rs => ([], [], rs)
  | l :: ls, [] => ([], l :: ls, [])
  | l :: ls, r :: rs =>
    if f l r then
      let w := mergeLoop f ls (r :: rs)
      (l :: w.1, w.2.1, w.2.2)
    else
      let w := mergeLoop f (l :: ls) rs
      (r :: w.1, w.2.1, w.2.2)
termination_by ls rs => ls.length + rs.length

/-- The complete textbook merge of two buffers (both remainders copied). -/
def seqMerge {α : Type} (f : α → α → Bool) : List α → List α → List α
  | [], rs => rs
  | l :: ls, [] => l :: ls
  | l :: ls, r :: rs =>
    if f l r then l :: seqMerge f ls (r :: rs)
    else r :: seqMerge f (l :: ls) rs
termination_by ls rs => ls.length + rs.length

/-- par_merge with a comparator, acting on the range `[first, last)` whose
contents are `l`, split at `middle = first + mid`.  The source copies the two
halves into temporary buffers, runs the comparison loop writing back from
`first`, then copies back only the remainder of the LEFT buffer; whatever
tail of the range the loop never wrote keeps its old contents. -/
def par_merge_cmp {α : Type} (f : α → α → Bool) (l : List α) (mid : Nat) : List α :=
  let arrayLeft := l.take mid
  let arrayRight := l.drop mid
  let w := mergeLoop f arrayLeft arrayRight
  let written := w.1 ++ w.2.1
  written ++ l.drop written.length

/-- par_merge without a comparator: the loop takes the left front whenever
front-left <= front-right (ties prefer the left buffer). -/
def par_merge (l : List Int) (mid : Nat) : List Int :=
  par_merge_cmp (fun a b => decide (a ≤ b)) l mid

/-- std::sort leaf for the comparator overload, modelled as an insertion
sort driven by the Bool comparator.  std::sort only promises a sorted
permutation (it is not stable); any deterministic sorting function is a
faithful model of the observable contract, and for the stability analysis
only sub-ranges of size at most 1 reach the leaf in the counterexamples. -/
def insertB {α : Type} (f : α → α → Bool) (x : α) : List α → List α
  | [] => [x]
  | y :: ys => if f x y then x :: y :: ys else y :: insertB f x ys

def sortB {α : Type} (f : α → α → Bool) : List α → List α
  | [] => []
  | x :: xs => insertB f x (sortB f xs)

/-- Parallel version of std::sort with a comparator: sort each half (left in
a task, right synchronously), join, then par_merge the two sorted halves in
place. -/
def par_sort_cmp {α : Type} (f : α → α → Bool) (l : List α) (chunkSize : Nat) : List α :=
  if h : l.length ≤ chunkSize ∨ l.length ≤ 1 then sortB f l
  else
    par_merge_cmp f
      (par_sort_cmp f (l.take (l.length / 2)) chunkSize ++
        par_sort_cmp f (l.drop (l.length / 2)) chunkSize)
      (l.length / 2)
termination_by l.length
decreasing_by
  · simp [List.length_take]; omega
  · simp [List.length_drop]; omega

/-- Parallel version of std::sort without a comparator (natural ascending
order).  The leaf std::sort produces the sorted permutation of the
sub-range, modelled by insertion sort; the merge ties prefer the left
buffer (<=). -/
def par_sort (l : List Int) (chunkSize : Nat) : List Int :=
  if h : l.length ≤ chunkSize ∨ l.length ≤ 1 then l.insertionSort (· ≤ ·)
  else
    par_merge
      (par_sort (l.take (l.length / 2)) chunkSize ++
        par_sort (l.drop (l.length / 2)) chunkSize)
      (l.length / 2)
termination_by l.length
decreasing_by
  · simp [List.length_take]; omega
  · simp [List.length_drop]; omega

/-- Recursion depth of the binary divide-and-conquer executor on a range of
size n with threshold chunkSize: 0 at the sequential leaf, otherwise one more
than the deeper of the two halves (sizes n / 2 and n - n / 2). -/
def par_depth (n chunkSize : Nat) : Nat :=
  if h : n ≤ chunkSize ∨ n ≤ 1 then 0
  else 1 + max (par_depth (n / 2) chunkSize) (par_depth (n - n / 2) chunkSize)
termination_by n
decreasing_by
  · omega
  · omega

/-- Accumulating a list by addition from an arbitrary seed splits off the
seed (std::accumulate is a left fold, addition is associative). -/
theorem foldl_add_seed (l : List Int) : ∀ a : Int,
    l.foldl (· + ·) a = a + l.foldl (· + ·) 0 := by
  induction l with
  | nil => intro a; simp
  | cons x xs ih =>
    intro a
    simp only [List.foldl_cons]
    rw [ih (a + x), ih (0 + x)]
    ring

theorem foldl_add_f_seed (f : Int → Int) (l : List Int) : ∀ a : Int,
    l.foldl (fun s x => s + f x) a = a + l.foldl (fun s x => s + f x) 0 := by
  induction l with
  | nil => intro a; simp
  | cons x xs ih =>
    intro a
    simp only [List.foldl_cons]
    rw [ih (a + f x), ih (0 + f x)]
    ring

/-- par_sum returns exactly the sequential left-to-right accumulation. -/
theorem par_sum_eq (c : Nat) : ∀ l : List Int,
    par_sum l c = l.foldl (· + ·) 0 := by
  intro l
  generalize hn : l.length = n
  induction n using Nat.strong_induction_on generalizing l with
  | _ n ih =>
  subst hn
  rw [par_sum]
  split
  · rfl
  · rename_i h
    rw [ih (l.take (l.length / 2)).length (by simp [List.length_take]; omega) _ rfl,
        ih (l.drop (l.length / 2)).length (by simp [List.length_drop]; omega) _ rfl]
    conv_rhs => rw [← List.take_append_drop (l.length / 2) l, List.foldl_append]
    rw [foldl_add_seed (l.drop (l.length / 2))
      (List.foldl (· + ·) 0 (l.take (l.length / 2)))]
    ring

theorem par_sum_f_eq (f : Int → Int) (c : Nat) : ∀ l : List Int,
    par_sum_f f l c = l.foldl (fun s x => s + f x) 0 := by
  intro l
  generalize hn : l.length = n
  induction n using Nat.strong_induction_on generalizing l with
  | _ n ih =>
  subst hn
  rw [par_sum_f]
  split
  · rfl
  · rename_i h
    rw [ih (l.take (l.length / 2)).length (by simp [List.length_take]; omega) _ rfl,
        ih (l.drop (l.length / 2)).length (by simp [List.length_drop]; omega) _ rfl]
    conv_rhs => rw [← List.take_append_drop (l.length / 2) l, List.foldl_append]
    rw [foldl_add_f_seed f (l.drop (l.length / 2))
      (List.foldl (fun s x => s + f x) 0 (l.take (l.length / 2)))]
    ring

theorem par_transform_eq (f : Int → Int) (c : Nat) : ∀ l : List Int,
    par_transform f l c = l.map f := by
  intro l
  generalize hn : l.length = n
  induction n using Nat.strong_induction_on generalizing l with
  | _ n ih =>
  subst hn
  rw [par_transform]
  split
  · rfl
  · rename_i h
    rw [ih (l.take (l.length / 2)).length (by simp [List.length_take]; omega) _ rfl,
        ih (l.drop (l.length / 2)).length (by simp [List.length_drop]; omega) _ rfl,
        ← List.map_append, List.take_append_drop]

theorem par_fill_eq (v : Int) (c : Nat) : ∀ l : List Int,
    par_fill v l c = l.map fun _ => v := by
  intro l
  generalize hn : l.length = n
  induction n using Nat.strong_induction_on generalizing l with
  | _ n ih =>
  subst hn
  rw [par_fill]
  split
  · rfl
  · rename_i h
    rw [ih (l.take (l.length / 2)).length (by simp [List.length_take]; omega) _ rfl,
        ih (l.drop (l.length / 2)).length (by simp [List.length_drop]; omega) _ rfl,
        ← List.map_append, List.take_append_drop]

theorem par_copy_eq (c : Nat) : ∀ l : List Int, par_copy l c = l := by
  intro l
  generalize hn : l.length = n
  induction n using Nat.strong_induction_on generalizing l with
  | _ n ih =>
  subst hn
  rw [par_copy]
  split
  · rfl
  · rename_i h
    rw [ih (l.take (l.length / 2)).length (by simp [List.length_take]; omega) _ rfl,
        ih (l.drop (l.length / 2)).length (by simp [List.length_drop]; omega) _ rfl,
        List.take_append_drop]

theorem par_count_eq (v : Int) (c : Nat) : ∀ l : List Int,
    par_count l v c = l.count v := by
  intro l
  generalize hn : l.length = n
  induction n using Nat.strong_induction_on generalizing l with
  | _ n ih =>
  subst hn
  rw [par_count]
  split
  · rfl
  · rename_i h
    rw [ih (l.drop (l.length / 2)).length (by simp [List.length_drop]; omega) _ rfl,
        ih (l.take (l.length / 2)).length (by simp [List.length_take]; omega) _ rfl]
    conv_rhs => rw [← List.take_append_drop (l.length / 2) l, List.count_append]
    omega

theorem par_count_if_eq (p : Int → Bool) (c : Nat) : ∀ l : List Int,
    par_count_if p l c = l.countP p := by
  intro l
  generalize hn : l.length = n
  induction n using Nat.strong_induction_on generalizing l with
  | _ n ih =>
  subst hn
  rw [par_count_if]
  split
  · rfl
  · rename_i h
    rw [ih (l.drop (l.length / 2)).length (by simp [List.length_drop]; omega) _ rfl,
        ih (l.take (l.length / 2)).length (by simp [List.length_take]; omega) _ rfl]
    conv_rhs => rw [← List.take_append_drop (l.length / 2) l, List.countP_append]
    omega

/-- The find-family combine step computes the leftmost match of the whole
range from the two halves' leftmost matches. -/
theorem find_combine (p : Int → Bool) (l : List Int) (h2 : 2 ≤ l.length) :
    (if (l.take (l.length / 2)).findIdx p ≠ l.length / 2 then
        (l.take (l.length / 2)).findIdx p
      else if (l.drop (l.length / 2)).findIdx p ≠ l.length - l.length / 2 then
        l.length / 2 + (l.drop (l.length / 2)).findIdx p
      else l.length) = l.findIdx p := by
  have hm : l.length / 2 ≤ l.length := Nat.div_le_self _ _
  have hlt : (l.take (l.length / 2)).length = l.length / 2 := by
    simp [List.length_take]; omega
  have hld : (l.drop (l.length / 2)).length = l.length - l.length / 2 := by
    simp [List.length_drop]
  have hT := @List.findIdx_le_length _ p (l.take (l.length / 2))
  have hD := @List.findIdx_le_length _ p (l.drop (l.length / 2))
  rw [hlt] at hT
  rw [hld] at hD
  conv_rhs => rw [← List.take_append_drop (l.length / 2) l, List.findIdx_append]
  rw [hlt]
  split_ifs with hne hne2 hlt2 hlt2 <;> omega

theorem par_find_if_eq (p : Int → Bool) (c : Nat) : ∀ l : List Int,
    par_find_if p l c = l.findIdx p := by
  intro l
  generalize hn : l.length = n
  induction n using Nat.strong_induction_on generalizing l with
  | _ n ih =>
  subst hn
  rw [par_find_if]
  split
  · rfl
  · rename_i h
    simp only []
    rw [ih (l.take (l.length / 2)).length (by simp [List.length_take]; omega) _ rfl,
        ih (l.drop (l.length / 2)).length (by simp [List.length_drop]; omega) _ rfl]
    exact find_combine p l (by omega)

theorem par_find_eq (v : Int) (c : Nat) : ∀ l : List Int,
    par_find l v c = l.findIdx fun x => x == v := by
  intro l
  generalize hn : l.length = n
  induction n using Nat.strong_induction_on generalizing l with
  | _ n ih =>
  subst hn
  rw [par_find]
  split
  · rfl
  · rename_i h
    simp only []
    rw [ih (l.take (l.length / 2)).length (by simp [List.length_take]; omega) _ rfl,
        ih (l.drop (l.length / 2)).length (by simp [List.length_drop]; omega) _ rfl]
    exact find_combine (fun x => x == v) l (by omega)

theorem par_find_if_not_eq (p : Int → Bool) (c : Nat) : ∀ l : List Int,
    par_find_if_not p l c = l.findIdx fun x => !(p x) := by
  intro l
  generalize hn : l.length = n
  induction n using Nat.strong_induction_on generalizing l with
  | _ n ih =>
  subst hn
  rw [par_find_if_not]
  split
  · rfl
  · rename_i h
    simp only []
    rw [ih (l.take (l.length / 2)).length (by simp [List.length_take]; omega) _ rfl,
        ih (l.drop (l.length / 2)).length (by simp [List.length_drop]; omega) _ rfl]
    exact find_combine (fun x => !(p x)) l (by omega)

theorem par_replace_eq (a b : Int) (c : Nat) : ∀ l : List Int,
    par_replace l a b c = l.map fun x => if x == a then b else x := by
  intro l
  generalize hn : l.length = n
  induction n using Nat.strong_induction_on generalizing l with
  | _ n ih =>
  subst hn
  rw [par_replace]
  split
  · rfl
  · rename_i h
    rw [ih (l.take (l.length / 2)).length (by simp [List.length_take]; omega) _ rfl,
        ih (l.drop (l.length / 2)).length (by simp [List.length_drop]; omega) _ rfl,
        ← List.map_append, List.take_append_drop]

theorem par_replace_if_eq (p : Int → Bool) (b : Int) (c : Nat) : ∀ l : List Int,
    par_replace_if p b l c = l.map fun x => if p x then b else x := by
  intro l
  generalize hn : l.length = n
  induction n using Nat.strong_induction_on generalizing l with
  | _ n ih =>
  subst hn
  rw [par_replace_if]
  split
  · rfl
  · rename_i h
    rw [ih (l.take (l.length / 2)).length (by simp [List.length_take]; omega) _ rfl,
        ih (l.drop (l.length / 2)).length (by simp [List.length_drop]; omega) _ rfl,
        ← List.map_append, List.take_append_drop]

theorem par_equal_eq (c : Nat) : ∀ (l m : List Int), m.length = l.length →
    par_equal l m c = seq_equal l m := by
  intro l
  generalize hn : l.length = n
  induction n using Nat.strong_induction_on generalizing l with
  | _ n ih =>
  intro m hlen
  subst hn
  rw [par_equal]
  split
  · rfl
  · rename_i h
    simp only []
    rw [ih (l.take (l.length / 2)).length (by simp [List.length_take]; omega) _ rfl
          (m.take (l.length / 2)) (by simp [List.length_take]; omega),
        ih (l.drop (l.length / 2)).length (by simp [List.length_drop]; omega) _ rfl
          (m.drop (l.length / 2)) (by simp [List.length_drop]; omega)]
    have hz : l.zip m =
        (l.take (l.length / 2)).zip (m.take (l.length / 2)) ++
          (l.drop (l.length / 2)).zip (m.drop (l.length / 2)) := by
      conv_lhs => rw [← List.take_append_drop (l.length / 2) l,
        ← List.take_append_drop (l.length / 2) m]
      exact List.zip_append (by simp [List.length_take]; omega)
    simp only [seq_equal]
    rw [hz, List.all_append, Bool.and_comm]

theorem par_all_of_eq (p : Int → Bool) (c : Nat) (l : List Int) :
    par_all_of p l c = l.all p := by
  rw [par_all_of, par_find_if_not_eq]
  rcases hall : l.all p with _ | _
  · rw [List.all_eq_false] at hall
    obtain ⟨x, hx, hpx⟩ := hall
    have hlt : l.findIdx (fun x => !(p x)) < l.length :=
      List.findIdx_lt_length_of_exists ⟨x, hx, by simp [hpx]⟩
    simp only [beq_eq_false_iff_ne]
    omega
  · rw [List.all_eq_true] at hall
    have heq : l.findIdx (fun x => !(p x)) = l.length :=
      List.findIdx_eq_length.mpr fun x hx => by simp [hall x hx]
    simp [heq]

theorem par_any_of_eq (p : Int → Bool) (c : Nat) (l : List Int) :
    par_any_of p l c = l.any p := by
  rw [par_any_of, par_find_if_eq]
  rcases hany : l.any p with _ | _
  · have : ∀ x ∈ l, p x = false := by
      intro x hx
      rcases hpx : p x with _ | _
      · rfl
      · exact absurd (List.any_eq_true.mpr ⟨x, hx, hpx⟩) (by simp [hany])
    have heq : l.findIdx p = l.length := List.findIdx_eq_length.mpr this
    simp [bne, heq]
  · rw [List.any_eq_true] at hany
    obtain ⟨x, hx, hpx⟩ := hany
    have hlt : l.findIdx p < l.length :=
      List.findIdx_lt_length_of_exists ⟨x, hx, hpx⟩
    simp only [bne, beq_eq_false_iff_ne, Bool.not_eq_true']
    omega

theorem par_none_of_eq (p : Int → Bool) (c : Nat) (l : List Int) :
    par_none_of p l c = !(l.any p) := by
  rw [par_none_of, par_find_if_eq]
  rcases hany : l.any p with _ | _
  · have : ∀ x ∈ l, p x = false := by
      intro x hx
      rcases hpx : p x with _ | _
      · rfl
      · exact absurd (List.any_eq_true.mpr ⟨x, hx, hpx⟩) (by simp [hany])
    have heq : l.findIdx p = l.length := List.findIdx_eq_length.mpr this
    simp [heq]
  · rw [List.any_eq_true] at hany
    obtain ⟨x, hx, hpx⟩ := hany
    have hlt : l.findIdx p < l.length :=
      List.findIdx_lt_length_of_exists ⟨x, hx, hpx⟩
    simp only [beq_eq_false_iff_ne, Bool.not_true]
    omega

theorem foldl_max_seed (xs : List Int) : ∀ b y : Int,
    xs.foldl max (max b y) = max b (xs.foldl max y) := by
  induction xs with
  | nil => intro b y; rfl
  | cons z zs ih =>
    intro b y
    simp only [List.foldl_cons]
    rw [max_assoc, ih b (max y z)]

theorem le_foldl_max (b : Int) (xs : List Int) : b ≤ xs.foldl max b := by
  cases xs with
  | nil => exact le_refl b
  | cons x xs =>
    simp only [List.foldl_cons]
    rw [foldl_max_seed xs b x]
    exact le_max_left _ _

theorem mem_le_foldl_max (x : Int) : ∀ (xs : List Int) (b : Int), x ∈ xs →
    x ≤ xs.foldl max b := by
  intro xs
  induction xs with
  | nil => intro b hx; cases hx
  | cons y ys ih =>
    intro b hx
    simp only [List.foldl_cons]
    rcases List.mem_cons.mp hx with rfl | hx
    · calc x ≤ max b x := le_max_right _ _
        _ ≤ ys.foldl max (max b x) := le_foldl_max _ _
    · exact ih (max b y) hx

theorem mem_le_maxVal (l : List Int) (x : Int) (hx : x ∈ l) : x ≤ maxVal l := by
  cases l with
  | nil => cases hx
  | cons y ys =>
    rcases List.mem_cons.mp hx with rfl | hx
    · exact le_foldl_max _ _
    · exact mem_le_foldl_max _ _ _ hx

theorem foldl_max_mem : ∀ (xs : List Int) (b : Int),
    xs.foldl max b = b ∨ xs.foldl max b ∈ xs := by
  intro xs
  induction xs with
  | nil => intro b; exact Or.inl rfl
  | cons y ys ih =>
    intro b
    simp only [List.foldl_cons]
    rcases ih (max b y) with hl | hr
    · rcases max_choice b y with hb | hy
      · exact Or.inl (hl.trans hb)
      · exact Or.inr (List.mem_cons.mpr (Or.inl (hl.trans hy)))
    · exact Or.inr (List.mem_cons.mpr (Or.inr hr))

theorem maxVal_mem (l : List Int) (hl : l ≠ []) : maxVal l ∈ l := by
  cases l with
  | nil => exact absurd rfl hl
  | cons y ys =>
    rcases foldl_max_mem ys y with hy | hm
    · rw [maxVal, hy]; exact List.mem_cons_self _ _
    · exact List.mem_cons.mpr (Or.inr hm)

theorem maxVal_append (L R : List Int) (hL : L ≠ []) (hR : R ≠ []) :
    maxVal (L ++ R) = max (maxVal L) (maxVal R) := by
  cases L with
  | nil => exact absurd rfl hL
  | cons x xs =>
    cases R with
    | nil => exact absurd rfl hR
    | cons y ys =>
      show ((xs ++ y :: ys).foldl max x) = _
      rw [List.foldl_append]
      simp only [List.foldl_cons]
      rw [foldl_max_seed ys (xs.foldl max x) y]
      rfl

theorem std_max_lt_length (l : List Int) (hl : l ≠ []) :
    std_max_element l < l.length :=
  List.findIdx_lt_length_of_exists ⟨maxVal l, maxVal_mem l hl, by simp⟩

theorem getD_std_max (l : List Int) (hl : l ≠ []) :
    l.getD (std_max_element l) 0 = maxVal l := by
  have hlt := std_max_lt_length l hl
  rw [List.getD_eq_getElem l 0 hlt]
  have hp := @List.findIdx_getElem _ (fun x => decide (maxVal l ≤ x)) l hlt
  simp only [decide_eq_true_eq] at hp
  exact le_antisymm (mem_le_maxVal l _ (l.getElem_mem hlt)) hp

theorem getD_lt_std_max (l : List Int) (j : Nat) (hj : j < std_max_element l) :
    l.getD j 0 < maxVal l := by
  have hjl : j < l.length :=
    lt_of_lt_of_le hj (List.findIdx_le_length _)
  rw [List.getD_eq_getElem l 0 hjl]
  have hp := List.not_of_lt_findIdx (p := fun x => decide (maxVal l ≤ x)) hj
  simp only [decide_eq_false_iff_not, not_le] at hp
  exact hp

theorem std_max_unique (l : List Int) (i : Nat) (hi : i < l.length)
    (hv : l.getD i 0 = maxVal l)
    (hfirst : ∀ j, j < i → l.getD j 0 < maxVal l) :
    i = std_max_element l := by
  have hl : l ≠ [] := by
    intro h
    rw [h] at hi
    simp at hi
  rcases Nat.lt_trichotomy i (std_max_element l) with hlt | heq | hgt
  · have := getD_lt_std_max l i hlt
    omega
  · exact heq
  · have := hfirst (std_max_element l) hgt
    rw [getD_std_max l hl] at this
    omega

theorem foldl_min_seed (xs : List Int) : ∀ b y : Int,
    xs.foldl min (min b y) = min b (xs.foldl min y) := by
  induction xs with
  | nil => intro b y; rfl
  | cons z zs ih =>
    intro b y
    simp only [List.foldl_cons]
    rw [min_assoc, ih b (min y z)]

theorem foldl_min_le (b : Int) (xs : List Int) : xs.foldl min b ≤ b := by
  cases xs with
  | nil => exact le_refl b
  | cons x xs =>
    simp only [List.foldl_cons]
    rw [foldl_min_seed xs b x]
    exact min_le_left _ _

theorem foldl_min_le_mem (x : Int) : ∀ (xs : List Int) (b : Int), x ∈ xs →
    xs.foldl min b ≤ x := by
  intro xs
  induction xs with
  | nil => intro b hx; cases hx
  | cons y ys ih =>
    intro b hx
    simp only [List.foldl_cons]
    rcases List.mem_cons.mp hx with rfl | hx
    · calc ys.foldl min (min b x) ≤ min b x := foldl_min_le _ _
        _ ≤ x := min_le_right _ _
    · exact ih (min b y) hx

theorem minVal_le_mem (l : List Int) (x : Int) (hx : x ∈ l) : minVal l ≤ x := by
  cases l with
  | nil => cases hx
  | cons y ys =>
    rcases List.mem_cons.mp hx with rfl | hx
    · exact foldl_min_le _ _
    · exact foldl_min_le_mem _ _ _ hx

theorem foldl_min_mem : ∀ (xs : List Int) (b : Int),
    xs.foldl min b = b ∨ xs.foldl min b ∈ xs := by
  intro xs
  induction xs with
  | nil => intro b; exact Or.inl rfl
  | cons y ys ih =>
    intro b
    simp only [List.foldl_cons]
    rcases ih (min b y) with hl | hr
    · rcases min_choice b y with hb | hy
      · exact Or.inl (hl.trans hb)
      · exact Or.inr (List.mem_cons.mpr (Or.inl (hl.trans hy)))
    · exact Or.inr (List.mem_cons.mpr (Or.inr hr))

theorem minVal_mem (l : List Int) (hl : l ≠ []) : minVal l ∈ l := by
  cases l with
  | nil => exact absurd rfl hl
  | cons y ys =>
    rcases foldl_min_mem ys y with hy | hm
    · rw [minVal, hy]; exact List.mem_cons_self _ _
    · exact List.mem_cons.mpr (Or.inr hm)

theorem minVal_append (L R : List Int) (hL : L ≠ []) (hR : R ≠ []) :
    minVal (L ++ R) = min (minVal L) (minVal R) := by
  cases L with
  | nil => exact absurd rfl hL
  | cons x xs =>
    cases R with
    | nil => exact absurd rfl hR
    | cons y ys =>
      show ((xs ++ y :: ys).foldl min x) = _
      rw [List.foldl_append]
      simp only [List.foldl_cons]
      rw [foldl_min_seed ys (xs.foldl min x) y]
      rfl

theorem std_min_lt_length (l : List Int) (hl : l ≠ []) :
    std_min_element l < l.length :=
  List.findIdx_lt_length_of_exists ⟨minVal l, minVal_mem l hl, by simp⟩

theorem getD_std_min (l : List Int) (hl : l ≠ []) :
    l.getD (std_min_element l) 0 = minVal l := by
  have hlt := std_min_lt_length l hl
  rw [List.getD_eq_getElem l 0 hlt]
  have hp := @List.findIdx_getElem _ (fun x => decide (x ≤ minVal l)) l hlt
  simp only [decide_eq_true_eq] at hp
  exact le_antisymm hp (minVal_le_mem l _ (l.getElem_mem hlt))

theorem getD_lt_std_min (l : List Int) (j : Nat) (hj : j < std_min_element l) :
    minVal l < l.getD j 0 := by
  have hjl : j < l.length :=
    lt_of_lt_of_le hj (List.findIdx_le_length _)
  rw [List.getD_eq_getElem l 0 hjl]
  have hp := List.not_of_lt_findIdx (p := fun x => decide (x ≤ minVal l)) hj
  simp only [decide_eq_false_iff_not, not_le] at hp
  exact hp

theorem std_min_unique (l : List Int) (i : Nat) (hi : i < l.length)
    (hv : l.getD i 0 = minVal l)
    (hfirst : ∀ j, j < i → minVal l < l.getD j 0) :
    i = std_min_element l := by
  have hl : l ≠ [] := by
    intro h
    rw [h] at hi
    simp at hi
  rcases Nat.lt_trichotomy i (std_min_element l) with hlt | heq | hgt
  · have := getD_lt_std_min l i hlt
    omega
  · exact heq
  · have := hfirst (std_min_element l) hgt
    rw [getD_std_min l hl] at this
    omega

theorem foldl_append_eq_join : ∀ (fs : List (List Int)) (a : List Int),
    fs.foldl (fun dstLast r => dstLast ++ r) a = a ++ fs.flatten := by
  intro fs
  induction fs with
  | nil => intro a; simp
  | cons f fs ih =>
    intro a
    simp only [List.foldl_cons, List.flatten_cons]
    rw [ih (a ++ f), List.append_assoc]

theorem copyIfFutures_join (p : Int → Bool) (c : Nat) (hc : 1 ≤ c) :
    ∀ l : List Int, (copyIfFutures p l c).flatten = l.filter p := by
  intro l
  generalize hn : l.length = n
  induction n using Nat.strong_induction_on generalizing l with
  | _ n ih =>
  subst hn
  rw [copyIfFutures]
  split
  · rename_i h
    have : l = [] := List.length_eq_zero.mp (by omega)
    subst this
    rfl
  · rename_i h
    rw [List.flatten_cons]
    rw [ih (l.drop c).length (by simp [List.length_drop]; omega) _ rfl]
    rw [← List.filter_append, List.take_append_drop]

theorem removeIfFutures_join (p : Int → Bool) (c : Nat) (hc : 1 ≤ c) :
    ∀ l : List Int, (removeIfFutures p l c).flatten = l.filter fun x => !(p x) := by
  intro l
  generalize hn : l.length = n
  induction n using Nat.strong_induction_on generalizing l with
  | _ n ih =>
  subst hn
  rw [removeIfFutures]
  split
  · rename_i h
    have : l = [] := List.length_eq_zero.mp (by omega)
    subst this
    rfl
  · rename_i h
    rw [List.flatten_cons]
    rw [ih (l.drop c).length (by simp [List.length_drop]; omega) _ rfl]
    rw [← List.filter_append, List.take_append_drop]

/-- par_copy_if keeps exactly the sequential filter, in the original order,
whenever the range is nonempty (the empty range is undefined behaviour). -/
theorem par_copy_if_eq (p : Int → Bool) (c : Nat) (l : List Int)
    (hc : 1 ≤ c) (hl : l ≠ []) :
    par_copy_if p l c = some (l.filter p) := by
  have hne : copyIfFutures p l c =
      (l.take c).filter p :: copyIfFutures p (l.drop c) c := by
    rw [copyIfFutures]
    rw [dif_neg]
    push_neg
    constructor
    · simpa [List.length_eq_zero] using hl
    · omega
  have hjoin := copyIfFutures_join p c hc l
  rw [hne, List.flatten_cons] at hjoin
  simp only [par_copy_if, hne]
  rw [foldl_append_eq_join, hjoin]

theorem par_remove_if_eq (p : Int → Bool) (c : Nat) (l : List Int)
    (hc : 1 ≤ c) (hl : l ≠ []) :
    par_remove_if p l c = some (l.filter fun x => !(p x)) := by
  have hne : removeIfFutures p l c =
      (l.take c).filter (fun x => !(p x)) :: removeIfFutures p (l.drop c) c := by
    rw [removeIfFutures]
    rw [dif_neg]
    push_neg
    constructor
    · simpa [List.length_eq_zero] using hl
    · omega
  have hjoin := removeIfFutures_join p c hc l
  rw [hne, List.flatten_cons] at hjoin
  simp only [par_remove_if, hne]
  rw [foldl_append_eq_join, hjoin]

theorem par_copy_if_empty (p : Int → Bool) (c : Nat) :
    par_copy_if p [] c = none := by
  simp [par_copy_if, copyIfFutures]

theorem par_remove_if_empty (p : Int → Bool) (c : Nat) :
    par_remove_if p [] c = none := by
  simp [par_remove_if, removeIfFutures]

/-- A single chunk (0 < n <= c) still dispatches exactly one task. -/
theorem chunkTasks_single (n c : Nat) (hn : 1 ≤ n) (hc : n ≤ c) :
    chunkTasks n c = 1 := by
  rw [chunkTasks]
  rw [dif_neg (by omega)]
  rw [chunkTasks]
  rw [dif_pos (Or.inl (by omega))]

theorem par_transform_tasks_leaf (l : List Int) (c : Nat) (h : l.length ≤ c) :
    par_transform_tasks l c = 0 := by
  rw [par_transform_tasks]
  rw [dif_pos (Or.inl h)]

theorem getD_le_maxVal (L : List Int) (j : Nat) (hj : j < L.length) :
    L.getD j 0 ≤ maxVal L := by
  rw [List.getD_eq_getElem L 0 hj]
  exact mem_le_maxVal L _ (L.getElem_mem hj)

theorem minVal_le_getD (L : List Int) (j : Nat) (hj : j < L.length) :
    minVal L ≤ L.getD j 0 := by
  rw [List.getD_eq_getElem L 0 hj]
  exact minVal_le_mem L _ (L.getElem_mem hj)

/-- par_max_element returns exactly the sequential std::max_element result:
the first occurrence of the maximum.  The strict combine comparison makes the
left sub-extremum win ties, preserving first-occurrence semantics. -/
theorem par_max_element_eq (c : Nat) : ∀ l : List Int,
    par_max_element l c = std_max_element l := by
  intro l
  generalize hn : l.length = n
  induction n using Nat.strong_induction_on generalizing l with
  | _ n ih =>
  subst hn
  rw [par_max_element]
  split
  · rfl
  · rename_i h
    simp only []
    rw [ih (l.take (l.length / 2)).length (by simp [List.length_take]; omega) _ rfl,
        ih (l.drop (l.length / 2)).length (by simp [List.length_drop]; omega) _ rfl]
    have h2 : 2 ≤ l.length := by omega
    have hmle : l.length / 2 ≤ l.length := Nat.div_le_self _ _
    set mid := l.length / 2 with hmid
    set L := l.take mid with hLdef
    set R := l.drop mid with hRdef
    have hLlen : L.length = mid := by
      rw [hLdef]; simp [List.length_take]; omega
    have hRlen : R.length = l.length - mid := by
      rw [hRdef]; simp
    have hLne : L ≠ [] := by
      intro hx
      rw [hx] at hLlen
      simp at hLlen
      omega
    have hRne : R ≠ [] := by
      intro hx
      rw [hx] at hRlen
      simp at hRlen
      omega
    have hLR : L ++ R = l := List.take_append_drop mid l
    have iL := std_max_lt_length L hLne
    have iR := std_max_lt_length R hRne
    rw [hLlen] at iL
    rw [hRlen] at iR
    have hvL : l.getD (std_max_element L) 0 = maxVal L := by
      rw [← hLR, List.getD_append _ _ _ _ (by rw [hLlen]; exact iL)]
      exact getD_std_max L hLne
    have hvR : l.getD (mid + std_max_element R) 0 = maxVal R := by
      rw [← hLR, List.getD_append_right _ _ _ _ (by rw [hLlen]; omega)]
      have hidx : mid + std_max_element R - L.length = std_max_element R := by
        rw [hLlen]; omega
      rw [hidx]
      exact getD_std_max R hRne
    have hmv : maxVal l = max (maxVal L) (maxVal R) := by
      rw [← hLR]
      exact maxVal_append L R hLne hRne
    split_ifs with hcond
    · rw [hvL, hvR] at hcond
      apply std_max_unique l _ (by omega)
      · rw [hvR, hmv]
        exact (max_eq_right (le_of_lt hcond)).symm
      · intro j hj
        rcases Nat.lt_or_ge j mid with hjm | hjm
        · have hjv : l.getD j 0 = L.getD j 0 := by
            rw [← hLR, List.getD_append _ _ _ _ (by rw [hLlen]; exact hjm)]
          rw [hjv, hmv, max_eq_right (le_of_lt hcond)]
          exact lt_of_le_of_lt (getD_le_maxVal L j (by rw [hLlen]; exact hjm)) hcond
        · have hjv : l.getD j 0 = R.getD (j - mid) 0 := by
            rw [← hLR, List.getD_append_right _ _ _ _ (by rw [hLlen]; omega), hLlen]
          rw [hjv, hmv, max_eq_right (le_of_lt hcond)]
          exact getD_lt_std_max R (j - mid) (by omega)
    · rw [hvL, hvR] at hcond
      push_neg at hcond
      apply std_max_unique l _ (by omega)
      · rw [hvL, hmv]
        exact (max_eq_left hcond).symm
      · intro j hj
        have hjv : l.getD j 0 = L.getD j 0 := by
          rw [← hLR, List.getD_append _ _ _ _ (by rw [hLlen]; omega)]
        rw [hjv, hmv, max_eq_left hcond]
        exact getD_lt_std_max L j hj

/-- par_min_element (no comparator) returns exactly the sequential
std::min_element result: the non-strict combine comparison keeps the left
sub-extremum on ties, preserving first-occurrence semantics. -/
theorem par_min_element_eq (c : Nat) : ∀ l : List Int,
    par_min_element l c = std_min_element l := by
  intro l
  generalize hn : l.length = n
  induction n using Nat.strong_induction_on generalizing l with
  | _ n ih =>
  subst hn
  rw [par_min_element]
  split
  · rfl
  · rename_i h
    simp only []
    rw [ih (l.take (l.length / 2)).length (by simp [List.length_take]; omega) _ rfl,
        ih (l.drop (l.length / 2)).length (by simp [List.length_drop]; omega) _ rfl]
    have h2 : 2 ≤ l.length := by omega
    have hmle : l.length / 2 ≤ l.length := Nat.div_le_self _ _
    set mid := l.length / 2 with hmid
    set L := l.take mid with hLdef
    set R := l.drop mid with hRdef
    have hLlen : L.length = mid := by
      rw [hLdef]; simp [List.length_take]; omega
    have hRlen : R.length = l.length - mid := by
      rw [hRdef]; simp
    have hLne : L ≠ [] := by
      intro hx
      rw [hx] at hLlen
      simp at hLlen
      omega
    have hRne : R ≠ [] := by
      intro hx
      rw [hx] at hRlen
      simp at hRlen
      omega
    have hLR : L ++ R = l := List.take_append_drop mid l
    have iL := std_min_lt_length L hLne
    have iR := std_min_lt_length R hRne
    rw [hLlen] at iL
    rw [hRlen] at iR
    have hvL : l.getD (std_min_element L) 0 = minVal L := by
      rw [← hLR, List.getD_append _ _ _ _ (by rw [hLlen]; exact iL)]
      exact getD_std_min L hLne
    have hvR : l.getD (mid + std_min_element R) 0 = minVal R := by
      rw [← hLR, List.getD_append_right _ _ _ _ (by rw [hLlen]; omega)]
      have hidx : mid + std_min_element R - L.length = std_min_element R := by
        rw [hLlen]; omega
      rw [hidx]
      exact getD_std_min R hRne
    have hmv : minVal l = min (minVal L) (minVal R) := by
      rw [← hLR]
      exact minVal_append L R hLne hRne
    split_ifs with hcond
    · rw [hvL, hvR] at hcond
      apply std_min_unique l _ (by omega)
      · rw [hvL, hmv]
        exact (min_eq_left hcond).symm
      · intro j hj
        have hjv : l.getD j 0 = L.getD j 0 := by
          rw [← hLR, List.getD_append _ _ _ _ (by rw [hLlen]; omega)]
        rw [hjv, hmv, min_eq_left hcond]
        exact getD_lt_std_min L j hj
    · rw [hvL, hvR] at hcond
      push_neg at hcond
      apply std_min_unique l _ (by omega)
      · rw [hvR, hmv]
        exact (min_eq_right (le_of_lt hcond)).symm
      · intro j hj
        rcases Nat.lt_or_ge j mid with hjm | hjm
        · have hjv : l.getD j 0 = L.getD j 0 := by
            rw [← hLR, List.getD_append _ _ _ _ (by rw [hLlen]; exact hjm)]
          rw [hjv, hmv, min_eq_right (le_of_lt hcond)]
          exact lt_of_lt_of_le hcond (minVal_le_getD L j (by rw [hLlen]; exact hjm))
        · have hjv : l.getD j 0 = R.getD (j - mid) 0 := by
            rw [← hLR, List.getD_append_right _ _ _ _ (by rw [hLlen]; omega), hLlen]
          rw [hjv, hmv, min_eq_right (le_of_lt hcond)]
          exact getD_lt_std_min R (j - mid) (by omega)

theorem mergeLoop_parts {α : Type} (f : α → α → Bool) : ∀ L R : List α,
    (mergeLoop f L R).1 ++ ((mergeLoop f L R).2.1 ++ (mergeLoop f L R).2.2) =
      seqMerge f L R := by
  intro L R
  generalize hn : L.length + R.length = n
  induction n using Nat.strong_induction_on generalizing L R with
  | _ n ih =>
  subst hn
  cases L with
  | nil => simp [mergeLoop, seqMerge]
  | cons l ls =>
    cases R with
    | nil => simp [mergeLoop, seqMerge]
    | cons r rs =>
      rcases hf : f l r with _ | _
      · simp only [mergeLoop, seqMerge, hf, Bool.false_eq_true, if_false,
          List.cons_append]
        rw [ih ((l :: ls).length + rs.length) (by simp only [List.length_cons]; omega) _ _ rfl]
      · simp only [mergeLoop, seqMerge, hf, if_true, List.cons_append]
        rw [ih (ls.length + (r :: rs).length) (by simp only [List.length_cons]; omega) _ _ rfl]

theorem mergeLoop_length {α : Type} (f : α → α → Bool) : ∀ L R : List α,
    (mergeLoop f L R).1.length + (mergeLoop f L R).2.1.length +
      (mergeLoop f L R).2.2.length = L.length + R.length := by
  intro L R
  generalize hn : L.length + R.length = n
  induction n using Nat.strong_induction_on generalizing L R with
  | _ n ih =>
  subst hn
  cases L with
  | nil => simp [mergeLoop]
  | cons l ls =>
    cases R with
    | nil => simp [mergeLoop]
    | cons r rs =>
      rcases hf : f l r with _ | _
      · simp only [mergeLoop, hf, Bool.false_eq_true, if_false, List.length_cons]
        have := ih ((l :: ls).length + rs.length) (by simp only [List.length_cons]; omega) (l :: ls) rs rfl
        simp only [List.length_cons] at this ⊢
        omega
      · simp only [mergeLoop, hf, if_true, List.length_cons]
        have := ih (ls.length + (r :: rs).length) (by simp only [List.length_cons]; omega) ls (r :: rs) rfl
        simp only [List.length_cons] at this ⊢
        omega

theorem mergeLoop_rem {α : Type} (f : α → α → Bool) : ∀ L R : List α,
    (mergeLoop f L R).2.1 = [] ∨ (mergeLoop f L R).2.2 = [] := by
  intro L R
  generalize hn : L.length + R.length = n
  induction n using Nat.strong_induction_on generalizing L R with
  | _ n ih =>
  subst hn
  cases L with
  | nil => simp [mergeLoop]
  | cons l ls =>
    cases R with
    | nil => simp [mergeLoop]
    | cons r rs =>
      rcases hf : f l r with _ | _
      · simp only [mergeLoop, hf, Bool.false_eq_true, if_false]
        exact ih ((l :: ls).length + rs.length) (by simp only [List.length_cons]; omega) (l :: ls) rs rfl
      · simp only [mergeLoop, hf, if_true]
        exact ih (ls.length + (r :: rs).length) (by simp only [List.length_cons]; omega) ls (r :: rs) rfl

theorem mergeLoop_suffix {α : Type} (f : α → α → Bool) : ∀ L R : List α,
    (mergeLoop f L R).2.2 <:+ R := by
  intro L R
  generalize hn : L.length + R.length = n
  induction n using Nat.strong_induction_on generalizing L R with
  | _ n ih =>
  subst hn
  cases L with
  | nil => simp [mergeLoop]
  | cons l ls =>
    cases R with
    | nil => simp [mergeLoop]
    | cons r rs =>
      rcases hf : f l r with _ | _
      · simp only [mergeLoop, hf, Bool.false_eq_true, if_false]
        exact (ih ((l :: ls).length + rs.length) (by simp only [List.length_cons]; omega)
          (l :: ls) rs rfl).trans (List.suffix_cons r rs)
      · simp only [mergeLoop, hf, if_true]
        exact ih (ls.length + (r :: rs).length) (by simp only [List.length_cons]; omega) ls (r :: rs) rfl

/-- The in-place par_merge leaves the range holding exactly the complete
merge of the two halves, even though only the left remainder is copied back:
the untaken right-buffer elements already sit at their final positions. -/
theorem par_merge_cmp_eq {α : Type} (f : α → α → Bool) (l : List α) (mid : Nat) :
    par_merge_cmp f l mid = seqMerge f (l.take mid) (l.drop mid) := by
  set L := l.take mid with hLdef
  set R := l.drop mid with hRdef
  have hLR : L ++ R = l := List.take_append_drop mid l
  have hparts := mergeLoop_parts f L R
  have hlen := mergeLoop_length f L R
  have hsuf := mergeLoop_suffix f L R
  simp only [par_merge_cmp]
  rcases mergeLoop_rem f L R with ha | hb
  · rw [ha] at hparts hlen
    simp only [List.append_nil, List.nil_append, List.length_nil] at hparts hlen
    rw [ha, List.append_nil]
    obtain ⟨u, hu⟩ := hsuf
    have hRu : u.length + (mergeLoop f L R).2.2.length = R.length := by
      have := congrArg List.length hu
      simp only [List.length_append] at this
      omega
    have hstep : l.drop (mergeLoop f L R).1.length = R.drop u.length := by
      rw [← hLR]
      rw [show (mergeLoop f L R).1.length = L.length + u.length by omega]
      rw [← List.drop_drop, List.drop_left]
    have hsuffix : R.drop u.length = (mergeLoop f L R).2.2 := by
      conv_lhs => rw [← hu]
      exact List.drop_left u _
    rw [hstep, hsuffix, hparts]
  · rw [hb] at hparts hlen
    simp only [List.append_nil, List.length_nil] at hparts hlen
    have hdrop : l.drop ((mergeLoop f L R).1 ++ (mergeLoop f L R).2.1).length = [] := by
      apply List.drop_eq_nil_of_le
      rw [← hLR]
      simp only [List.length_append]
      omega
    rw [hdrop, List.append_nil, hparts]

/-- The in-place merge without comparator equals the complete merge with
ties preferring the left buffer. -/
theorem par_merge_eq (l : List Int) (mid : Nat) :
    par_merge l mid = seqMerge (fun a b => decide (a ≤ b)) (l.take mid) (l.drop mid) :=
  par_merge_cmp_eq _ l mid

theorem seqMerge_perm {α : Type} (f : α → α → Bool) : ∀ L R : List α,
    (seqMerge f L R).Perm (L ++ R) := by
  intro L R
  generalize hn : L.length + R.length = n
  induction n using Nat.strong_induction_on generalizing L R with
  | _ n ih =>
  subst hn
  cases L with
  | nil => simp [seqMerge]
  | cons l ls =>
    cases R with
    | nil => simp [seqMerge]
    | cons r rs =>
      rcases hf : f l r with _ | _
      · simp only [seqMerge, hf, Bool.false_eq_true, if_false]
        have hp := ih ((l :: ls).length + rs.length)
          (by simp only [List.length_cons]; omega) (l :: ls) rs rfl
        exact (hp.cons r).trans List.perm_middle.symm
      · simp only [seqMerge, hf, if_true, List.cons_append]
        exact (ih (ls.length + (r :: rs).length)
          (by simp only [List.length_cons]; omega) ls (r :: rs) rfl).cons l

theorem seqMerge_sorted : ∀ L R : List Int,
    L.Sorted (· ≤ ·) → R.Sorted (· ≤ ·) →
      (seqMerge (fun a b => decide (a ≤ b)) L R).Sorted (· ≤ ·) := by
  intro L R
  generalize hn : L.length + R.length = n
  induction n using Nat.strong_induction_on generalizing L R with
  | _ n ih =>
  intro hL hR
  subst hn
  cases L with
  | nil => simpa [seqMerge] using hR
  | cons l ls =>
    cases R with
    | nil => simpa [seqMerge] using hL
    | cons r rs =>
      rw [List.sorted_cons] at hL hR
      rcases hf : decide (l ≤ r) with _ | _
      · have hrl : r ≤ l := le_of_lt (by simpa using hf)
        simp only [seqMerge, hf, Bool.false_eq_true, if_false]
        rw [List.sorted_cons]
        constructor
        · intro b hb
          have := (seqMerge_perm (fun a b => decide (a ≤ b)) (l :: ls) rs).mem_iff.mp hb
          rcases List.mem_append.mp this with hbl | hbr
          · rcases List.mem_cons.mp hbl with rfl | hbl
            · exact hrl
            · exact hrl.trans (hL.1 b hbl)
          · exact hR.1 b hbr
        · exact ih ((l :: ls).length + rs.length)
            (by simp only [List.length_cons]; omega) (l :: ls) rs rfl
            (List.sorted_cons.mpr hL) hR.2
      · have hlr : l ≤ r := by simpa using hf
        simp only [seqMerge, hf, if_true]
        rw [List.sorted_cons]
        constructor
        · intro b hb
          have := (seqMerge_perm (fun a b => decide (a ≤ b)) ls (r :: rs)).mem_iff.mp hb
          rcases List.mem_append.mp this with hbl | hbr
          · exact hL.1 b hbl
          · rcases List.mem_cons.mp hbr with rfl | hbr
            · exact hlr
            · exact hlr.trans (hR.1 b hbr)
        · exact ih (ls.length + (r :: rs).length)
            (by simp only [List.length_cons]; omega) ls (r :: rs) rfl hL.2
            (List.sorted_cons.mpr hR)

theorem par_sort_sorted_perm (c : Nat) : ∀ l : List Int,
    (par_sort l c).Sorted (· ≤ ·) ∧ (par_sort l c).Perm l := by
  intro l
  generalize hn : l.length = n
  induction n using Nat.strong_induction_on generalizing l with
  | _ n ih =>
  subst hn
  rw [par_sort]
  split
  · exact ⟨List.sorted_insertionSort _ l, List.perm_insertionSort _ l⟩
  · rename_i h
    obtain ⟨hsortL, hpermL⟩ :=
      ih (l.take (l.length / 2)).length (by simp [List.length_take]; omega) _ rfl
    obtain ⟨hsortR, hpermR⟩ :=
      ih (l.drop (l.length / 2)).length (by simp [List.length_drop]; omega) _ rfl
    set A := par_sort (l.take (l.length / 2)) c with hA
    set B := par_sort (l.drop (l.length / 2)) c with hB
    have hAlen : A.length = l.length / 2 := by
      rw [hpermL.length_eq]
      simp [List.length_take]
      omega
    have htake : (A ++ B).take (l.length / 2) = A := by
      rw [← hAlen]
      exact List.take_left A B
    have hdrop : (A ++ B).drop (l.length / 2) = B := by
      rw [← hAlen]
      exact List.drop_left A B
    rw [par_merge, par_merge_cmp_eq, htake, hdrop]
    have hperm : (seqMerge (fun a b => decide (a ≤ b)) A B).Perm l := by
      have h2 := hpermL.append hpermR
      rw [List.take_append_drop] at h2
      exact (seqMerge_perm _ A B).trans h2
    exact ⟨seqMerge_sorted A B hsortL hsortR, hperm⟩

/-- par_sort agrees with the sequential sorted permutation on every
chunk size. -/
theorem par_sort_eq (c : Nat) (l : List Int) :
    par_sort l c = l.insertionSort (· ≤ ·) := by
  obtain ⟨hs, hp⟩ := par_sort_sorted_perm c l
  exact List.eq_of_perm_of_sorted (hp.trans (List.perm_insertionSort _ l).symm) hs
    (List.sorted_insertionSort _ l)

theorem par_depth_le_iff (c : Nat) (hc : 1 ≤ c) : ∀ (k n : Nat),
    par_depth n c ≤ k ↔ n ≤ c * 2 ^ k := by
  intro k
  induction k with
  | zero =>
    intro n
    rw [par_depth]
    split
    · rename_i hg
      simp only [Nat.le_refl, pow_zero, Nat.mul_one, true_iff]
      omega
    · rename_i hg
      simp only [pow_zero, Nat.mul_one]
      omega
  | succ k ihk =>
    intro n
    have hpow : c * 2 ^ (k + 1) = c * 2 ^ k + c * 2 ^ k := by ring
    rw [par_depth]
    split
    · rename_i hg
      have hone : c * 1 ≤ c * 2 ^ (k + 1) :=
        Nat.mul_le_mul_left c Nat.one_le_two_pow
      simp only [Nat.zero_le, true_iff]
      omega
    · rename_i hg
      have h1 := ihk (n / 2)
      have h2 := ihk (n - n / 2)
      constructor
      · intro hle
        have hm1 : par_depth (n / 2) c ≤ k := by omega
        have hm2 : par_depth (n - n / 2) c ≤ k := by omega
        have := h1.mp hm1
        have := h2.mp hm2
        omega
      · intro hle
        have hm1 : par_depth (n / 2) c ≤ k := h1.mpr (by omega)
        have hm2 : par_depth (n - n / 2) c ≤ k := h2.mpr (by omega)
        omega

theorem ceil_div_le_iff (n c m : Nat) (hc : 1 ≤ c) :
    (n + c - 1) / c ≤ m ↔ n ≤ c * m := by
  rw [Nat.div_le_iff_le_mul_add_pred hc]
  omega

/-- The recursion depth of the divide-and-conquer executor is exactly the
ceiling of log2(n / chunkSize): Nat.clog 2 of the ceiling division. -/
theorem par_depth_eq_clog (n c : Nat) (hc : 1 ≤ c) :
    par_depth n c = Nat.clog 2 ((n + c - 1) / c) := by
  apply Nat.le_antisymm
  · rw [par_depth_le_iff c hc]
    rw [← ceil_div_le_iff n c _ hc]
    exact Nat.le_pow_clog one_lt_two _
  · rw [← Nat.le_pow_iff_clog_le one_lt_two]
    rw [ceil_div_le_iff n c _ hc]
    rw [← par_depth_le_iff c hc]

/-- Claim C1 (amended): for every threshold chunkSize >= 1 every supported
value-level operation returns exactly the corresponding sequential
algorithm's result -- in particular the reductions par_sum, par_count and
par_count_if return the sequential left-to-right accumulation over the whole
range -- with the two exceptions the counterexample forces: the comparator
overload of par_min_element (whose tie-break deviates from std::min_element
on duplicate minima) and the chunked par_copy_if / par_remove_if on an empty
range (undefined behaviour, hence the nonempty hypothesis on those two
conjuncts). -/
theorem claim_C1_amended (f : Int → Int) (p : Int → Bool) (v a b : Int)
    (l m : List Int) (c : Nat) (hc : 1 ≤ c) :
    par_transform f l c = l.map f ∧
    par_fill v l c = l.map (fun _ => v) ∧
    par_copy l c = l ∧
    par_sum l c = l.foldl (· + ·) 0 ∧
    par_sum_f f l c = l.foldl (fun s x => s + f x) 0 ∧
    par_count l v c = l.count v ∧
    par_count_if p l c = l.countP p ∧
    par_find l v c = l.findIdx (fun x => x == v) ∧
    par_find_if p l c = l.findIdx p ∧
    par_find_if_not p l c = l.findIdx (fun x => !(p x)) ∧
    par_replace l a b c = l.map (fun x => if x == a then b else x) ∧
    par_replace_if p b l c = l.map (fun x => if p x then b else x) ∧
    (m.length = l.length → par_equal l m c = seq_equal l m) ∧
    par_all_of p l c = l.all p ∧
    par_any_of p l c = l.any p ∧
    par_none_of p l c = !(l.any p) ∧
    par_max_element l c = std_max_element l ∧
    par_min_element l c = std_min_element l ∧
    par_sort l c = l.insertionSort (· ≤ ·) ∧
    (l ≠ [] → par_copy_if p l c = some (l.filter p)) ∧
    (l ≠ [] → par_remove_if p l c = some (l.filter fun x => !(p x))) := by
  refine ⟨par_transform_eq f c l, par_fill_eq v c l, par_copy_eq c l,
    par_sum_eq c l, par_sum_f_eq f c l, par_count_eq v c l, par_count_if_eq p c l,
    par_find_eq v c l, par_find_if_eq p c l, par_find_if_not_eq p c l,
    par_replace_eq a b c l, par_replace_if_eq p b c l,
    fun hm => par_equal_eq c l m hm,
    par_all_of_eq p c l, par_any_of_eq p c l, par_none_of_eq p c l,
    par_max_element_eq c l, par_min_element_eq c l, par_sort_eq c l,
    fun hl => par_copy_if_eq p c l hc hl,
    fun hl => par_remove_if_eq p c l hc hl⟩

theorem claim_C1_amended_witness :
    (1 : Nat) ≤ 2 ∧
    par_sum [5, 3, 8, 3, 1, 9, 3] 2 = 32 ∧
    par_count [3, 3, 5, 3] 3 2 = 3 ∧
    par_copy_if (fun x => x != 3) [5, 3, 8, 3, 1, 9, 3] 2 = some [5, 8, 1, 9] := by
  have h := claim_C1_amended id (fun x => x != 3) 0 0 0 [5, 3, 8, 3, 1, 9, 3] [] 2
    (by decide)
  have h2 := claim_C1_amended id (fun x => x != 3) 3 0 0 [3, 3, 5, 3] [] 2
    (by decide)
  refine ⟨by decide, ?_, ?_, ?_⟩
  · rw [h.2.2.2.1]; decide
  · rw [h2.2.2.2.2.2.1]; decide
  · rw [h.2.2.2.2.2.2.2.2.2.2.2.2.2.2.2.2.2.2.2.1 (by decide)]; decide

/-- Claim C1 counterexample: with chunkSize = 1 <= n = 2 and exact integer
values, the comparator overload of par_min_element on the range [0, 0] with
comparator < returns position 1, while the sequential std::min_element
returns position 0: not every supported operation matches its sequential
counterpart. -/
theorem claim_C1_cex :
    par_min_element_cmp (fun a b => decide (a < b)) [0, 0] 1 = 1 ∧
    std_min_element_cmp (fun a b => decide (a < b)) [0, 0] = 0 ∧
    (1 : Nat) ≠ 0 := by
  refine ⟨?_, ?_, by decide⟩
  · simp +decide [par_min_element_cmp, std_min_element_cmp, List.findIdx_cons]
  · simp +decide [std_min_element_cmp, List.findIdx_cons]

/-- Claim C2: for every range, every threshold c >= 1 and every value or
predicate, par_find, par_find_if and par_find_if_not return the position of
the left-most occurrence in the whole range -- List.findIdx, the smallest
index whose element matches, which is the length sentinel `last` when no
element matches.  The last three conjuncts spell the leftmost-match contract
out: every position before the result fails the predicate, the result is a
match when one exists, and the sentinel is returned when none exists. -/
theorem claim_C2 (p : Int → Bool) (v : Int) (l : List Int) (c : Nat)
    (hc : 1 ≤ c) :
    par_find l v c = l.findIdx (fun x => x == v) ∧
    par_find_if p l c = l.findIdx p ∧
    par_find_if_not p l c = l.findIdx (fun x => !(p x)) ∧
    (∀ j, j < par_find_if p l c → p (l.getD j 0) = false) ∧
    ((∃ x ∈ l, p x = true) →
      par_find_if p l c < l.length ∧ p (l.getD (par_find_if p l c) 0) = true) ∧
    ((∀ x ∈ l, p x = false) → par_find_if p l c = l.length) := by
  refine ⟨par_find_eq v c l, par_find_if_eq p c l, par_find_if_not_eq p c l,
    ?_, ?_, ?_⟩
  · intro j hj
    rw [par_find_if_eq p c l] at hj
    have hjl : j < l.length := lt_of_lt_of_le hj (List.findIdx_le_length p)
    rw [List.getD_eq_getElem l 0 hjl]
    exact List.not_of_lt_findIdx hj
  · intro hex
    rw [par_find_if_eq p c l]
    have hlt := List.findIdx_lt_length_of_exists hex
    refine ⟨hlt, ?_⟩
    rw [List.getD_eq_getElem l 0 hlt]
    exact List.findIdx_getElem
  · intro hall
    rw [par_find_if_eq p c l]
    exact List.findIdx_eq_length_of_false hall

theorem claim_C2_witness :
    (1 : Nat) ≤ 2 ∧
    par_find_if (fun x => x == 3) [5, 3, 8, 3, 1, 9, 3] 2 = 1 ∧
    par_find [5, 3, 8, 3, 1, 9, 3] 7 2 = 7 := by
  have h := claim_C2 (fun x => x == 3) 7 [5, 3, 8, 3, 1, 9, 3] 2 (by decide)
  refine ⟨by decide, ?_, ?_⟩
  · rw [h.2.1]; decide
  · rw [h.1]; decide

/-- Claim C3 counterexample: parallel sort with a comparator is NOT stable.
Sorting the two-element sequence (key 1, id 0), (key 1, id 1) -- already in
order, with duplicate keys -- by the strict key comparator with chunkSize 1
returns the ids in reversed order: the merge takes the RIGHT buffer front on
ties. -/
theorem claim_C3_cex :
    par_sort_cmp (fun a b => decide (a.1 < b.1))
      [((1 : Int), (0 : Nat)), ((1 : Int), (1 : Nat))] 1 =
      [((1 : Int), (1 : Nat)), ((1 : Int), (0 : Nat))] ∧
    [((1 : Int), (1 : Nat)), ((1 : Int), (0 : Nat))] ≠
      [((1 : Int), (0 : Nat)), ((1 : Int), (1 : Nat))] := by
  refine ⟨?_, by decide⟩
  simp +decide [par_sort_cmp, par_merge_cmp, mergeLoop, sortB, insertB]

/-- Claim C3 (amended): the comparator-overload merge takes the front of the
left buffer exactly when it compares strictly less under the comparator
(func(left, right) true), so on ties the right buffer front wins and the
comparator par_sort is not stable; only the overload WITHOUT comparator
merges with <=, taking the left buffer front on ties. -/
theorem claim_C3_amended :
    (∀ (f : Int × Nat → Int × Nat → Bool) (x y : Int × Nat)
      (ls rs : List (Int × Nat)),
      (mergeLoop f (x :: ls) (y :: rs)).1.head? = some (if f x y then x else y)) ∧
    (∀ (x y : Int) (ls rs : List Int),
      (mergeLoop (fun a b => decide (a ≤ b)) (x :: ls) (y :: rs)).1.head? =
        some (if x ≤ y then x else y)) := by
  constructor
  · intro f x y ls rs
    rcases hf : f x y with _ | _ <;> simp [mergeLoop, hf]
  · intro x y ls rs
    by_cases hxy : x ≤ y <;> simp [mergeLoop, hxy]

/-- Claim C4 counterexample: on the range [0, 0] (duplicate minima
straddling the midpoint) with chunkSize 1, par_min_element returns position
0 -- the LEFT sub-extremum, which is also what std::min_element returns --
not position 1, so the claim that ties favour the right sub-extremum is
false. -/
theorem claim_C4_cex :
    par_min_element [0, 0] 1 = 0 ∧
    std_min_element [0, 0] = 0 ∧
    (0 : Nat) ≠ 1 := by
  refine ⟨?_, ?_, by decide⟩
  · simp +decide [par_min_element, std_min_element, minVal, List.findIdx_cons]
  · simp +decide [std_min_element, minVal, List.findIdx_cons]

/-- Claim C4 (amended): the combine step uses a strict comparison for max
and a non-strict comparison for min, and in BOTH cases ties favour the left
(earlier-found) sub-extremum; with this asymmetry the plain par_max_element
and par_min_element return exactly the element std::max_element /
std::min_element return on every range, including duplicate extrema.  (The
comparator overload of par_min_element instead lets the right sub-extremum
win ties and deviates; see the counterexample of claim C1.) -/
theorem claim_C4_amended (l : List Int) (c : Nat) (hc : 1 ≤ c) :
    par_max_element l c = std_max_element l ∧
    par_min_element l c = std_min_element l :=
  ⟨par_max_element_eq c l, par_min_element_eq c l⟩

theorem claim_C4_amended_witness :
    (1 : Nat) ≤ 2 ∧
    par_max_element [5, 3, 8, 3, 1, 9, 3] 2 = 5 ∧
    par_min_element [5, 3, 8, 3, 1, 9, 3] 2 = 4 := by
  have h := claim_C4_amended [5, 3, 8, 3, 1, 9, 3] 2 (by decide)
  refine ⟨by decide, ?_, ?_⟩
  · rw [h.1]; decide
  · rw [h.2]; decide

/-- Claim C5: for par_copy_if and par_remove_if with any threshold c >= 1 --
including when c does not divide n evenly -- the retained elements before
the returned position are exactly the sequential filter of the whole range,
in the original relative order, and their count equals the sequential
count.  (The empty range is excluded: there the source has undefined
behaviour, see claim C6.) -/
theorem claim_C5 (p : Int → Bool) (l : List Int) (c : Nat)
    (hc : 1 ≤ c) (hl : l ≠ []) :
    par_copy_if p l c = some (l.filter p) ∧
    par_remove_if p l c = some (l.filter fun x => !(p x)) ∧
    (l.filter p).length = l.countP p :=
  ⟨par_copy_if_eq p c l hc hl, par_remove_if_eq p c l hc hl,
    (List.countP_eq_length_filter p l).symm⟩

theorem claim_C5_witness :
    (1 : Nat) ≤ 2 ∧ ([5, 3, 8, 3, 1, 9, 3] : List Int) ≠ [] ∧
    par_copy_if (fun x => x != 3) [5, 3, 8, 3, 1, 9, 3] 2 = some [5, 8, 1, 9] ∧
    par_remove_if (fun x => x == 3) [5, 3, 8, 3, 1, 9, 3] 2 = some [5, 8, 1, 9] := by
  have h := claim_C5 (fun x => x != 3) [5, 3, 8, 3, 1, 9, 3] 2 (by decide) (by decide)
  have h2 := claim_C5 (fun x => x == 3) [5, 3, 8, 3, 1, 9, 3] 2 (by decide) (by decide)
  refine ⟨by decide, by decide, ?_, ?_⟩
  · rw [h.1]; decide
  · rw [h2.2.1]; decide

/-- Claim C6 (code bug): the binary divide-and-conquer operations do handle
the empty range as a base case and return the identity result (0 for sum
and count, the end-of-range sentinel for find), but the chunked operations
par_copy_if and par_remove_if do NOT: with n = 0 the chunk loop creates no
future and the stitch step calls futures.front() on an empty vector --
undefined behaviour, modelled as `none` instead of the start position the
claim requires. -/
theorem claim_C6 :
    par_sum [] 1 = 0 ∧
    par_find [] 0 1 = ([] : List Int).length ∧
    par_count [] 0 1 = 0 ∧
    par_count_if (fun x => x == 3) [] 1 = 0 ∧
    par_copy_if (fun x => x != 3) [] 1 = none ∧
    par_remove_if (fun x => x == 3) [] 1 = none := by
  refine ⟨by simp [par_sum], by simp [par_find], by simp [par_count],
    by simp [par_count_if], par_copy_if_empty _ 1, par_remove_if_empty _ 1⟩

/-- Claim C7 counterexample: a chunked operation on a 1-element range with
chunkSize 2 (so c >= n) still dispatches one asynchronous task -- the chunk
loop runs once -- not zero as the claim requires of every operation. -/
theorem claim_C7_cex :
    chunkTasks 1 2 = 1 ∧ (1 : Nat) ≠ 0 := by
  refine ⟨by simp [chunkTasks], by decide⟩

/-- Claim C7 (amended): whenever chunkSize >= n, every binary
divide-and-conquer operation degrades to exactly the sequential algorithm --
same result, and no task dispatched (par_transform_tasks = 0, the dispatch
count common to all binary operations); the chunked par_copy_if and
par_remove_if also return the sequential result but still dispatch exactly
ONE asynchronous task for their single chunk. -/
theorem claim_C7_amended (f : Int → Int) (p : Int → Bool) (l : List Int)
    (c : Nat) (hc : 1 ≤ c) (hnc : l.length ≤ c) :
    par_transform f l c = l.map f ∧
    par_transform_tasks l c = 0 ∧
    par_sum l c = l.foldl (· + ·) 0 ∧
    par_sort l c = l.insertionSort (· ≤ ·) ∧
    (l ≠ [] →
      par_copy_if p l c = some (l.filter p) ∧
      par_remove_if p l c = some (l.filter fun x => !(p x)) ∧
      chunkTasks l.length c = 1) := by
  refine ⟨par_transform_eq f c l, par_transform_tasks_leaf l c hnc,
    par_sum_eq c l, par_sort_eq c l, fun hl => ?_⟩
  exact ⟨par_copy_if_eq p c l hc hl, par_remove_if_eq p c l hc hl,
    chunkTasks_single l.length c (List.length_pos.mpr hl) hnc⟩

theorem claim_C7_amended_witness :
    (1 : Nat) ≤ 3 ∧ ([5, 3, 8] : List Int).length ≤ 3 ∧
    par_transform_tasks [5, 3, 8] 3 = 0 ∧
    par_sum [5, 3, 8] 3 = 16 ∧
    chunkTasks ([5, 3, 8] : List Int).length 3 = 1 := by
  have h := claim_C7_amended id (fun x => x == 3) [5, 3, 8] 3 (by decide) (by decide)
  refine ⟨by decide, by decide, h.2.1, ?_, (h.2.2.2.2 (by decide)).2.2⟩
  rw [h.2.2.1]; decide

/-- Claim C8: for every range size n and threshold c >= 1 the binary
divide-and-conquer recursion is well-founded -- when c < n both halves
(sizes n / 2 and n - n / 2) are strictly smaller than n -- and its depth is
exactly the ceiling of log2(n / c): Nat.clog 2 applied to the ceiling
division (n + c - 1) / c, which is 0 when n <= c. -/
theorem claim_C8 (n c : Nat) (hc : 1 ≤ c) :
    par_depth n c = Nat.clog 2 ((n + c - 1) / c) ∧
    (n ≤ c → par_depth n c = 0) ∧
    (c < n → n / 2 < n ∧ n - n / 2 < n) := by
  refine ⟨par_depth_eq_clog n c hc, fun hnc => ?_, fun hcn => by omega⟩
  have h0 := (par_depth_le_iff c hc 0 n).mpr (by simpa using hnc)
  omega

theorem claim_C8_witness :
    (1 : Nat) ≤ 2 ∧
    par_depth 7 2 = Nat.clog 2 ((7 + 2 - 1) / 2) ∧
    par_depth 7 2 = 2 ∧
    par_depth 2 2 = 0 := by
  have h := claim_C8 7 2 (by decide)
  have h2 := claim_C8 2 2 (by decide)
  exact ⟨by decide, h.1, by simp [par_depth], h2.2.1 (by decide)⟩

/-- Claim C9: on the sequence [5, 3, 8, 3, 1, 9, 3] with chunkSize 2, the
parallel sum is 32, parallel find-if with predicate x == 3 returns position
1 (the leftmost match, not 3 or 6), parallel ascending sort yields
[1, 3, 3, 3, 5, 8, 9], and parallel copy-if with predicate x != 3 yields
[5, 8, 1, 9] in that order. -/
theorem claim_C9 :
    par_sum [5, 3, 8, 3, 1, 9, 3] 2 = 32 ∧
    par_find_if (fun x => x == 3) [5, 3, 8, 3, 1, 9, 3] 2 = 1 ∧
    (1 : Nat) ≠ 3 ∧ (1 : Nat) ≠ 6 ∧
    par_sort [5, 3, 8, 3, 1, 9, 3] 2 = [1, 3, 3, 3, 5, 8, 9] ∧
    par_copy_if (fun x => x != 3) [5, 3, 8, 3, 1, 9, 3] 2 = some [5, 8, 1, 9] := by
  refine ⟨?_, ?_, by decide, by decide, ?_, ?_⟩
  · rw [par_sum_eq]; decide
  · rw [par_find_if_eq]; decide
  · rw [par_sort_eq]; decide
  · rw [par_copy_if_eq (fun x => x != 3) 2 [5, 3, 8, 3, 1, 9, 3] (by decide)
      (by decide)]
    decide

/-- Claim C10: although par_merge copies back only the remainder of the left
temporary buffer after its main loop, the range [first, last) ends up
holding exactly the complete merge (seqMerge, which copies both remainders)
of the two halves, for both the comparator overload and the plain overload:
the untaken right-buffer elements already occupy their final positions
unchanged.  The identity holds for all contents, in particular for adjacent
sorted sub-ranges. -/
theorem claim_C10 {α : Type} (f : α → α → Bool) (l : List α) (mid : Nat) :
    par_merge_cmp f l mid = seqMerge f (l.take mid) (l.drop mid) ∧
    ∀ (m : List Int) (k : Nat),
      par_merge m k = seqMerge (fun a b => decide (a ≤ b)) (m.take k) (m.drop k) :=
  ⟨par_merge_cmp_eq f l mid, fun m k => par_merge_eq m k⟩

end ABParallel

